import Mathlib

/-!
Shallow embedding of the portfolio site's non-trivial logic, verified against
its natural-language specification.

Source files embedded here:
* the experience-data composer (`parseDateKey`, `sortExperiences`);
* the portfolio-data composer (`buildCategories` and the `categories` memo of
  `usePortfolioData`);
* the route-key resolver (`useRouteKey`);
* the scroll-spy section selector (`updateActive` of `usePortfolioScrollSpy`).

Modelling conventions: JavaScript strings are Lean `String`s (character lists),
JavaScript numbers used as sort keys are `Nat`, and screen coordinates (which
are IEEE doubles in the browser) are modelled as exact rationals `ℚ`; JSON
objects are association lists.  `Array.prototype.sort`, which ECMAScript
requires to be stable, is modelled by the stable `List.insertionSort`.
`localeCompare` ordering on code strings is modelled by the code-point order
on `String`.
-/

namespace PortfolioSpec

/-! ### Date parsing (experience-data composer) -/

/-- The `MONTH_MAP` constant: month names and abbreviations to month numbers. -/
def MONTH_MAP : List (String × Nat) :=
  [("jan", 1), ("january", 1), ("feb", 2), ("february", 2), ("mar", 3),
   ("march", 3), ("apr", 4), ("april", 4), ("may", 5), ("jun", 6),
   ("june", 6), ("jul", 7), ("july", 7), ("aug", 8), ("august", 8),
   ("sep", 9), ("sept", 9), ("september", 9), ("oct", 10), ("october", 10),
   ("nov", 11), ("november", 11), ("dec", 12), ("december", 12)]

/-- First-match association-list lookup (JavaScript object property access on a
JSON-parsed object, whose keys are unique). -/
def lookupFirst {β : Type _} : List (String × β) → String → Option β
  | [], _ => none
  | (k, v) :: rest, key => if k = key then some v else lookupFirst rest key

/-- ASCII lower-casing of one character, as `String.prototype.toLowerCase`
acts on the ASCII range used by the data. -/
def lowerChar (c : Char) : Char :=
  if 'A' ≤ c ∧ c ≤ 'Z' then Char.ofNat (c.toNat + 32) else c

/-- `String.prototype.toLowerCase` (restricted to ASCII case mapping). -/
def lowerStr (s : String) : String := String.mk (s.data.map lowerChar)

/-- Whitespace test used by `String.prototype.trim` and the `\s` class. -/
def isWs (c : Char) : Bool := c.isWhitespace

/-- `String.prototype.trim`: drop leading and trailing whitespace. -/
def jsTrim (s : String) : String :=
  String.mk (((s.data.dropWhile isWs).reverse.dropWhile isWs).reverse)

/-- Value of a string of decimal digits (`parseInt` on an all-digit string). -/
def digitsToNat (cs : List Char) : Nat :=
  cs.foldl (fun acc c => acc * 10 + (c.toNat - '0'.toNat)) 0

/-- The two-digit-year pivot: `if (year < 100 && year > 0) year += year >= 50 ?
1900 : 2000`. -/
def pivotYear (y : Nat) : Nat :=
  if y < 100 ∧ 0 < y then y + (if 50 ≤ y then 1900 else 2000) else y

/-- Separator class of the month-name date pattern: dash, slash or
whitespace. -/
def isDateSep (c : Char) : Bool := c = '-' || c = '/' || isWs c

/-- Match of `/^([A-Za-z]+)[-\/\s]+(\d{2,4})$/` against the trimmed text:
a run of letters, a run of separators, then two to four digits ending the
string.  Returns the letter group and the digit group. -/
def monthNameMatch (s : String) : Option (String × String) :=
  let cs := s.data
  let letters := cs.takeWhile Char.isAlpha
  let rest := cs.dropWhile Char.isAlpha
  let seps := rest.takeWhile isDateSep
  let digits := rest.dropWhile isDateSep
  if letters ≠ [] ∧ seps ≠ [] ∧ digits.all Char.isDigit ∧
      2 ≤ digits.length ∧ digits.length ≤ 4 then
    some (String.mk letters, String.mk digits)
  else
    none

/-- The character cleanup of the generic branch: `年` becomes `/`, `月` is
deleted, `.` and `-` become `/`. -/
def cleanDate (cs : List Char) : List Char :=
  cs.filterMap fun c =>
    if c = '月' then none
    else if c = '年' ∨ c = '.' ∨ c = '-' then some '/'
    else some c

/-- `split(/[^0-9]/)`: segments of the string between non-digit characters
(possibly empty). -/
def splitRuns : List Char → List (List Char)
  | [] => [[]]
  | c :: cs =>
    match splitRuns cs with
    | [] => [[c]]
    | h :: t => if c.isDigit then (c :: h) :: t else [] :: h :: t

/-- `split(/[^0-9]/).filter(Boolean)`: the maximal digit runs of the string. -/
def digitRuns (cs : List Char) : List (List Char) :=
  (splitRuns cs).filter (fun r => r ≠ [])

/-- Month value of the generic branch: `parts.length > 1 ?
parseInt(parts[1], 10) || 12 : 12`, evaluated on the runs after the first. -/
def generalMonth : List (List Char) → Nat
  | [] => 12
  | p1 :: _ => if digitsToNat p1 = 0 then 12 else digitsToNat p1

/-- `parseDateKey`: permissive date-text parser producing the
`year * 100 + month` sort key, `0` when no date can be extracted. -/
def parseDateKey (value : String) : Nat :=
  if value = "" then 0
  else
    match monthNameMatch (jsTrim value) with
    | some (letters, digits) =>
      pivotYear (digitsToNat digits.data) * 100 +
        (lookupFirst MONTH_MAP (lowerStr letters)).getD 1
    | none =>
      match digitRuns (cleanDate (jsTrim value).data) with
      | [] => 0
      | p0 :: rest =>
        pivotYear (digitsToNat p0) * 100 + min (max (generalMonth rest) 1) 12

/-- The `ExperienceEntry` record of the data model. -/
structure ExperienceEntry where
  type : String
  organisation : String
  role : String
  begin : String
  «end» : String
  relatedWorks : List String
  description : String
  showDefault : Bool
  showGroups : List String
deriving DecidableEq, Repr

/-- The end-date sort key of an entry: `parseDateKey(item.end) ||
parseDateKey(item.begin)` (the parsed end date, falling back to the parsed
begin date when the end date yields `0`). -/
def endKeyOf (e : ExperienceEntry) : Nat :=
  let k := parseDateKey e.«end»
  if k = 0 then parseDateKey e.begin else k

/-- The begin-date sort key of an entry. -/
def beginKeyOf (e : ExperienceEntry) : Nat := parseDateKey e.begin

/-- The keyed wrapper built by `sortExperiences` before sorting. -/
structure KeyedEntry where
  item : ExperienceEntry
  endKey : Nat
  beginKey : Nat
deriving DecidableEq

/-- `items.map((item) => ({ item, endKey: ..., beginKey: ... }))`. -/
def toKeyed (e : ExperienceEntry) : KeyedEntry :=
  ⟨e, endKeyOf e, beginKeyOf e⟩

/-- The sort order induced by the comparator
`(a, b) => b.endKey !== a.endKey ? b.endKey - a.endKey : b.beginKey -
a.beginKey`: `a` may stay before `b` exactly when the comparator is `≤ 0`. -/
def leKeyed (a b : KeyedEntry) : Prop :=
  b.endKey < a.endKey ∨ (a.endKey = b.endKey ∧ b.beginKey ≤ a.beginKey)

instance : DecidableRel leKeyed := fun a b => by
  unfold leKeyed; infer_instance

instance : IsTotal KeyedEntry leKeyed :=
  ⟨fun a b => by unfold leKeyed; omega⟩

instance : IsTrans KeyedEntry leKeyed :=
  ⟨fun a b c => by unfold leKeyed; omega⟩

/-- `sortExperiences`: attach keys, sort stably by the comparator, strip the
keys again. -/
def sortExperiences (items : List ExperienceEntry) : List ExperienceEntry :=
  (List.insertionSort leKeyed (items.map toKeyed)).map KeyedEntry.item

/-- C5: the three sample date strings all produce the sort key 202305. -/
theorem parseDateKey_samples :
    parseDateKey "2023/05" = 202305 ∧ parseDateKey "May 2023" = 202305 ∧
      parseDateKey "2023-05" = 202305 := by
  refine ⟨?_, ?_, ?_⟩ <;> rfl

/-- Elements of the sorted keyed list are keyed copies of input entries, so
their stored keys agree with the keys recomputed from the entry. -/
theorem keys_of_mem_sort {l : List ExperienceEntry} {k : KeyedEntry}
    (h : k ∈ List.insertionSort leKeyed (l.map toKeyed)) :
    k.endKey = endKeyOf k.item ∧ k.beginKey = beginKeyOf k.item := by
  have h' : k ∈ l.map toKeyed :=
    (List.perm_insertionSort leKeyed (l.map toKeyed)).mem_iff.mp h
  obtain ⟨e, _, rfl⟩ := List.mem_map.mp h'
  exact ⟨rfl, rfl⟩

/-- The output of `sortExperiences` is pairwise ordered: descending end key,
ties broken by descending begin key. -/
theorem sortExperiences_pairwise (l : List ExperienceEntry) :
    List.Pairwise (fun a b => endKeyOf b < endKeyOf a ∨
      (endKeyOf a = endKeyOf b ∧ beginKeyOf b ≤ beginKeyOf a))
      (sortExperiences l) := by
  unfold sortExperiences
  rw [List.pairwise_map]
  have hs : List.Pairwise leKeyed (List.insertionSort leKeyed (l.map toKeyed)) :=
    List.sorted_insertionSort leKeyed (l.map toKeyed)
  refine hs.imp_of_mem ?_
  intro a b ha hb hab
  obtain ⟨ha1, ha2⟩ := keys_of_mem_sort ha
  obtain ⟨hb1, hb2⟩ := keys_of_mem_sort hb
  unfold leKeyed at hab
  rw [ha1, ha2, hb1, hb2] at hab
  exact hab

/-- C3: within a group, `sortExperiences` orders any two entries by strictly
greater end-date key first, equal end-date keys by greater begin-date key
first, where the end-date key is the parsed end date falling back to the
parsed begin date. -/
theorem sortExperiences_sorted (l : List ExperienceEntry) :
    List.Pairwise (fun a b => endKeyOf a > endKeyOf b ∨
      (endKeyOf a = endKeyOf b ∧ beginKeyOf a ≥ beginKeyOf b))
      (sortExperiences l) :=
  sortExperiences_pairwise l

/-- C7: sorting is stable; two entries with equal end keys and equal begin
keys keep their input order. -/
theorem sortExperiences_stable (l : List ExperienceEntry)
    (a b : ExperienceEntry) (hsub : List.Sublist [a, b] l)
    (h1 : endKeyOf a = endKeyOf b) (h2 : beginKeyOf a = beginKeyOf b) :
    List.Sublist [a, b] (sortExperiences l) := by
  have hk : List.Sublist [toKeyed a, toKeyed b] (l.map toKeyed) := by
    simpa using List.Sublist.map toKeyed hsub
  have hle : leKeyed (toKeyed a) (toKeyed b) :=
    Or.inr ⟨h1, Nat.le_of_eq h2.symm⟩
  have hs := List.pair_sublist_insertionSort hle hk
  simpa [sortExperiences] using List.Sublist.map KeyedEntry.item hs

/-- Stability witness data: two entries with identical keys, one higher-key
entry between them. -/
def stabA : ExperienceEntry := ⟨"t", "o1", "r", "2023/01", "2023/05", [], "", true, []⟩

/-- Second stability witness entry with the same keys as `stabA`. -/
def stabB : ExperienceEntry := ⟨"t", "o2", "r", "2023/01", "2023/05", [], "", true, []⟩

/-- Higher-key entry placed between `stabA` and `stabB` in the witness. -/
def stabX : ExperienceEntry := ⟨"t", "oX", "r", "2024/01", "2024/02", [], "", true, []⟩

/-- Witness for the stability theorem at a concrete three-entry list. -/
theorem sortExperiences_stable_witness :
    List.Sublist [stabA, stabB] (sortExperiences [stabA, stabX, stabB]) :=
  sortExperiences_stable [stabA, stabX, stabB] stabA stabB (by decide)
    (by decide) (by decide)

/-- Counterexample entry for C6: unparsable end text, parsable begin text. -/
def cexUnparsableEnd : ExperienceEntry :=
  ⟨"t", "", "", "2023/05", "n/a", [], "", true, []⟩

/-- Companion entry for C6 whose end text parses to a positive key smaller
than the begin key of `cexUnparsableEnd`. -/
def cexParsableEnd : ExperienceEntry :=
  ⟨"t", "", "", "2022/01", "2022/06", [], "", true, []⟩

/-- C6 fails on the code: an entry whose end text is unparsable gets the
begin-date key (here 202305), not zero, and sorts before an entry with the
positive end key 202206 instead of after it. -/
theorem endKey_unparsable_counterexample :
    parseDateKey cexUnparsableEnd.«end» = 0 ∧
      endKeyOf cexUnparsableEnd = 202305 ∧
      endKeyOf cexParsableEnd = 202206 ∧
      sortExperiences [cexParsableEnd, cexUnparsableEnd] =
        [cexUnparsableEnd, cexParsableEnd] := by
  refine ⟨rfl, rfl, rfl, ?_⟩
  rfl

/-- C6 (amended): an entry whose end text AND begin text are both unparsable
has end sort key zero, and in the sorted output every entry after any
occurrence of it also has end key zero, so all positive-key entries precede
it. -/
theorem endKey_unparsable_sorts_last (e : ExperienceEntry)
    (h1 : parseDateKey e.«end» = 0) (h2 : parseDateKey e.begin = 0) :
    endKeyOf e = 0 ∧
      ∀ (l : List ExperienceEntry) (i j : Fin (sortExperiences l).length),
        i < j → (sortExperiences l).get i = e →
        endKeyOf ((sortExperiences l).get j) = 0 := by
  have he : endKeyOf e = 0 := by
    unfold endKeyOf
    rw [h1]
    simpa using h2
  refine ⟨he, ?_⟩
  intro l i j hij hie
  have hp := List.pairwise_iff_get.mp (sortExperiences_pairwise l) i j hij
  rw [hie, he] at hp
  rcases hp with h | h
  · exact absurd h (Nat.not_lt_zero _)
  · exact h.1.symm

/-- Entry with unparsable begin and end texts, for the C6 witness. -/
def cexBothUnparsable : ExperienceEntry :=
  ⟨"t", "", "", "x", "y", [], "", true, []⟩

/-- Witness for the amended C6 theorem at a concrete entry and list. -/
theorem endKey_unparsable_sorts_last_witness :
    endKeyOf cexBothUnparsable = 0 ∧
      endKeyOf ((sortExperiences [cexBothUnparsable, cexBothUnparsable]).get
        ⟨1, by decide⟩) = 0 := by
  have h := endKey_unparsable_sorts_last cexBothUnparsable rfl rfl
  exact ⟨h.1, h.2 [cexBothUnparsable, cexBothUnparsable] ⟨0, by decide⟩
    ⟨1, by decide⟩ (by decide) rfl⟩

/-- Every value in `MONTH_MAP` is a month number at most 12. -/
theorem monthMap_le (l : List (String × Nat)) (key : String)
    (h : ∀ p ∈ l, p.2 ≤ 12) : (lookupFirst l key).getD 1 ≤ 12 := by
  induction l with
  | nil => simp [lookupFirst]
  | cons p rest ih =>
    simp only [lookupFirst]
    split
    · exact h p (List.mem_cons_self p rest)
    · exact ih fun q hq => h q (List.mem_cons_of_mem p hq)

/-- The month component of every date key is at most 12. -/
theorem parseDateKey_month_le (t : String) : parseDateKey t % 100 ≤ 12 := by
  by_cases hs : t = ""
  · simp [hs, parseDateKey]
  · cases hmm : monthNameMatch (jsTrim t) with
    | some pr =>
      obtain ⟨letters, digits⟩ := pr
      have hm : (lookupFirst MONTH_MAP (lowerStr letters)).getD 1 ≤ 12 :=
        monthMap_le MONTH_MAP (lowerStr letters) (by decide)
      unfold parseDateKey
      rw [if_neg hs, hmm]
      dsimp only
      omega
    | none =>
      cases hruns : digitRuns (cleanDate (jsTrim t).data) with
      | nil =>
        unfold parseDateKey
        rw [if_neg hs, hmm, hruns]
        dsimp only
        omega
      | cons p0 rest =>
        have hmin : min (max (generalMonth rest) 1) 12 ≤ 12 := min_le_right _ _
        unfold parseDateKey
        rw [if_neg hs, hmm, hruns]
        dsimp only
        omega

/-- C9: a date string with an extractable year but no month name and no
second numeric part parses to `year * 100 + 12`, the same key as that year's
December, and no date key with the same year exceeds it. -/
theorem parseDateKey_yearOnly (s : String) (y : List Char)
    (hm : monthNameMatch (jsTrim s) = none)
    (hr : digitRuns (cleanDate (jsTrim s).data) = [y]) :
    parseDateKey s = pivotYear (digitsToNat y) * 100 + 12 ∧
      ∀ t : String, parseDateKey t / 100 = pivotYear (digitsToNat y) →
        parseDateKey t ≤ parseDateKey s := by
  by_cases hs : s = ""
  · rw [hs] at hr
    have h0 : ([] : List (List Char)) = [y] := hr
    exact List.noConfusion h0
  · have hkey : parseDateKey s = pivotYear (digitsToNat y) * 100 + 12 := by
      unfold parseDateKey
      rw [if_neg hs, hm, hr]
      dsimp only [generalMonth]
      rfl
    refine ⟨hkey, ?_⟩
    intro t ht
    have hb := parseDateKey_month_le t
    have hdm := Nat.div_add_mod (parseDateKey t) 100
    omega

/-- Witness for the year-only date theorem at the string "2023". -/
theorem parseDateKey_yearOnly_witness :
    parseDateKey "2023" = 202312 ∧
      parseDateKey "2023/07" ≤ parseDateKey "2023" := by
  have h := parseDateKey_yearOnly "2023" "2023".data rfl rfl
  exact ⟨h.1.trans rfl, h.2 "2023/07" rfl⟩

/-! ### Portfolio data composer -/

/-- A link reference in a work detail record. -/
structure LinkRef where
  name : Option String := none
  link : Option String := none
deriving DecidableEq

/-- A collaborator reference in a work detail record. -/
structure CoWorker where
  name : Option String := none
  work : Option String := none
  link : Option String := none
deriving DecidableEq

/-- The `WorkDetail` record; all fields are optional in the TypeScript type. -/
structure WorkDetail where
  fullName : Option String := none
  h2Name : Option String := none
  tableName : Option String := none
  yearBegin : Option String := none
  yearEnd : Option String := none
  intro : Option String := none
  introList : Option (List String) := none
  headPic : Option String := none
  tags : Option (List String) := none
  links : Option (List LinkRef) := none
  coWorkers : Option (List CoWorker) := none
  content : Option String := none
deriving DecidableEq

/-- `createFallbackDetail`: the synthetic detail used when a code has no
entry in the work-detail map. -/
def createFallbackDetail (name : String) : WorkDetail :=
  { tableName := some name, fullName := some name, intro := some "",
    introList := some [], headPic := some "", tags := some [] }

/-- The `PortfolioItem` record of the data model. -/
structure PortfolioItem where
  code : String
  name : String
  category : String
  detail : WorkDetail
deriving DecidableEq

/-- The `PortfolioCategory` record of the data model. -/
structure PortfolioCategory where
  name : String
  items : List PortfolioItem
deriving DecidableEq

/-- A JSON value standing where a code list is expected: either an actual
array of strings or some non-array value (rejected by the `Array.isArray`
guard). -/
inductive CodesValue where
  | arr : List String → CodesValue
  | nonArray : CodesValue
deriving DecidableEq

/-- The `cv` field of a route entry: either a bare asset string or an object
with optional asset, link and group lists. -/
inductive CvRouteValue where
  | str : String → CvRouteValue
  | obj : Option String → Option String → Option (List String) →
      Option (List String) → CvRouteValue
deriving DecidableEq

/-- A route entry of the route configuration. -/
structure PortfolioRouteEntry where
  cv : Option CvRouteValue := none
  categories : Option (List (String × CodesValue)) := none
deriving DecidableEq

/-- Lexicographic code-point comparison of character lists. -/
def charListLe : List Char → List Char → Bool
  | [], _ => true
  | _ :: _, [] => false
  | a :: as, b :: bs =>
    if a.toNat < b.toNat then true
    else if b.toNat < a.toNat then false
    else charListLe as bs

/-- String order used to model `localeCompare`: code-point lexicographic. -/
def strLe (a b : String) : Prop := charListLe a.data b.data = true

instance : DecidableRel strLe := fun a b => by
  unfold strLe; infer_instance

/-- `Object.keys(portfolioMap).sort((a, b) => a.localeCompare(b))`, with
`localeCompare` modelled by code-point order on strings. -/
def defaultCodes (pm : List (String × String)) : List String :=
  List.insertionSort strLe (pm.map Prod.fst)

/-- Lookup returning the value of the last matching pair: a JavaScript `Map`
built from a list of pairs keeps the value inserted last for each key. -/
def lookupLast {β : Type _} (l : List (String × β)) (key : String) : Option β :=
  lookupFirst l.reverse key

/-- The `normalized` map of `buildCategories`: lower-cased canonical code to
canonical code, and its `get`. -/
def normalizedGet (pm : List (String × String)) (key : String) : Option String :=
  lookupLast ((defaultCodes pm).map fun c => (lowerStr c, c)) key

/-- One category's item construction: walk the raw code list threading the
global seen set, skipping unresolvable, already-seen and unnamed codes.
Returns the items pushed and the updated seen set. -/
def buildItems (pm : List (String × String)) (wd : List (String × WorkDetail))
    (categoryName : String) :
    List String → List String → List PortfolioItem × List String
  | [], seen => ([], seen)
  | raw :: rest, seen =>
    match normalizedGet pm (lowerStr (jsTrim raw)) with
    | none => buildItems pm wd categoryName rest seen
    | some resolved =>
      if resolved ∈ seen then buildItems pm wd categoryName rest seen
      else
        match lookupFirst pm resolved with
        | none => buildItems pm wd categoryName rest seen
        | some name =>
          if name = "" then buildItems pm wd categoryName rest seen
          else
            let res := buildItems pm wd categoryName rest (resolved :: seen)
            (⟨resolved, name, categoryName,
                (lookupFirst wd resolved).getD (createFallbackDetail name)⟩ ::
              res.1, res.2)

/-- The `Object.entries(source).forEach` loop of `buildCategories`: non-array
values are skipped, categories that produced no item are not pushed. -/
def buildCategoriesGo (pm : List (String × String))
    (wd : List (String × WorkDetail)) :
    List (String × CodesValue) → List String → List PortfolioCategory
  | [], _ => []
  | (_, CodesValue.nonArray) :: rest, seen => buildCategoriesGo pm wd rest seen
  | (catName, CodesValue.arr codes) :: rest, seen =>
    let res := buildItems pm wd catName codes seen
    if res.1 = [] then buildCategoriesGo pm wd rest res.2
    else ⟨catName, res.1⟩ :: buildCategoriesGo pm wd rest res.2

/-- `buildCategories`: empty result for a missing source, else the category
loop started with an empty seen set. -/
def buildCategories (pm : List (String × String))
    (wd : List (String × WorkDetail))
    (source : Option (List (String × CodesValue))) : List PortfolioCategory :=
  match source with
  | none => []
  | some entries => buildCategoriesGo pm wd entries []

/-- The `{code, name, category}` object literal built in the synthesized
fallback before the detail is attached. -/
structure BareItem where
  code : String
  name : String
  category : String
deriving DecidableEq

/-- One step of the synthesized fallback's first `map`: the bare
`{code, name, category}` literal for a code with a truthy name, `null`
otherwise. -/
def bareOfCode (pm : List (String × String)) (code : String) :
    Option BareItem :=
  match lookupFirst pm code with
  | none => none
  | some name =>
    if name = "" then none else some ⟨code, name, "作品集"⟩

/-- The detail-attachment pass of the synthesized fallback: spread the bare
item and add the looked-up or fallback detail. -/
def attachDetail (wd : List (String × WorkDetail)) (it : BareItem) :
    PortfolioItem :=
  ⟨it.code, it.name, it.category,
    (lookupFirst wd it.code).getD (createFallbackDetail it.name)⟩

/-- The synthesized fallback of the `categories` memo: the bare
`{code, name, category}` literals for every code with a truthy name, then the
detail attachment pass, wrapped in one category when non-empty. -/
def synthFallback (pm : List (String × String))
    (wd : List (String × WorkDetail)) : List PortfolioCategory :=
  let fallbackItems : List BareItem :=
    ((defaultCodes pm).map (bareOfCode pm)).reduceOption
  if fallbackItems = [] then []
  else [⟨"作品集", fallbackItems.map (attachDetail wd)⟩]

/-- The `categories` memo of `usePortfolioData`: build from the current
route entry, fall back to the default entry (unless the current entry is the
default object itself), then to the synthesized single category.  Object
identity `currentEntry !== DEFAULT_ROUTE_ENTRY` over the JSON-loaded
configuration holds exactly when the route key is the present literal
"default" key. -/
def usePortfolioCategories (cfg : List (String × PortfolioRouteEntry))
    (pm : List (String × String)) (wd : List (String × WorkDetail))
    (routeKey : String) : List PortfolioCategory :=
  let currentEntry := (lookupFirst cfg routeKey).getD ⟨none, none⟩
  let defaultEntry := (lookupFirst cfg "default").getD ⟨none, none⟩
  let r1 := buildCategories pm wd currentEntry.categories
  let r2 :=
    if r1 = [] ∧ ¬(routeKey = "default" ∧ (lookupFirst cfg "default").isSome = true)
    then buildCategories pm wd defaultEntry.categories
    else r1
  if r2 = [] then synthFallback pm wd else r2

/-- A configuration entry claims a canonical code when its value is an array
containing a raw code that trims and lower-cases to the canonical code's
normalized key. -/
def claimsCode (pm : List (String × String)) (entry : String × CodesValue)
    (c : String) : Prop :=
  ∃ codes, entry.2 = CodesValue.arr codes ∧
    ∃ raw ∈ codes, normalizedGet pm (lowerStr (jsTrim raw)) = some c

instance (pm : List (String × String)) (entry : String × CodesValue)
    (c : String) : Decidable (claimsCode pm entry c) := by
  unfold claimsCode
  cases entry.2 <;> simp <;> infer_instance

/-- All item codes of a category list, in order. -/
def allCodes : List PortfolioCategory → List String
  | [] => []
  | cat :: rest => cat.items.map PortfolioItem.code ++ allCodes rest

/-- Unfolding: an unresolvable raw code is skipped. -/
theorem buildItems_cons_none {pm : List (String × String)}
    {wd : List (String × WorkDetail)} {n raw : String} {rest seen : List String}
    (h : normalizedGet pm (lowerStr (jsTrim raw)) = none) :
    buildItems pm wd n (raw :: rest) seen = buildItems pm wd n rest seen := by
  simp only [buildItems, h]

/-- Unfolding: an already-claimed code is skipped. -/
theorem buildItems_cons_seen {pm : List (String × String)}
    {wd : List (String × WorkDetail)} {n raw : String} {rest seen : List String}
    {resolved : String}
    (hr : normalizedGet pm (lowerStr (jsTrim raw)) = some resolved)
    (hs : resolved ∈ seen) :
    buildItems pm wd n (raw :: rest) seen = buildItems pm wd n rest seen := by
  simp only [buildItems, hr, if_pos hs]

/-- Unfolding: a code whose name is absent from the map is skipped. -/
theorem buildItems_cons_noname {pm : List (String × String)}
    {wd : List (String × WorkDetail)} {n raw : String} {rest seen : List String}
    {resolved : String}
    (hr : normalizedGet pm (lowerStr (jsTrim raw)) = some resolved)
    (hs : resolved ∉ seen) (hn : lookupFirst pm resolved = none) :
    buildItems pm wd n (raw :: rest) seen = buildItems pm wd n rest seen := by
  simp only [buildItems, hr, if_neg hs, hn]

/-- Unfolding: a code whose name is the empty string is skipped. -/
theorem buildItems_cons_empty {pm : List (String × String)}
    {wd : List (String × WorkDetail)} {n raw : String} {rest seen : List String}
    {resolved name : String}
    (hr : normalizedGet pm (lowerStr (jsTrim raw)) = some resolved)
    (hs : resolved ∉ seen) (hn : lookupFirst pm resolved = some name)
    (he : name = "") :
    buildItems pm wd n (raw :: rest) seen = buildItems pm wd n rest seen := by
  simp only [buildItems, hr, if_neg hs, hn, if_pos he]

/-- Unfolding: a fresh, resolvable, named code is pushed and marked seen. -/
theorem buildItems_cons_add {pm : List (String × String)}
    {wd : List (String × WorkDetail)} {n raw : String} {rest seen : List String}
    {resolved name : String}
    (hr : normalizedGet pm (lowerStr (jsTrim raw)) = some resolved)
    (hs : resolved ∉ seen) (hn : lookupFirst pm resolved = some name)
    (he : name ≠ "") :
    buildItems pm wd n (raw :: rest) seen =
      (⟨resolved, name, n,
          (lookupFirst wd resolved).getD (createFallbackDetail name)⟩ ::
        (buildItems pm wd n rest (resolved :: seen)).1,
       (buildItems pm wd n rest (resolved :: seen)).2) := by
  simp only [buildItems, hr, if_neg hs, hn, if_neg he]

/-- Every item produced by `buildItems` carries its category name, resolves
to its non-empty name in the code-to-name map, carries the looked-up detail,
was not previously seen, and is claimed by some raw code of the list. -/
theorem buildItems_mem_item {pm : List (String × String)}
    {wd : List (String × WorkDetail)} {n : String} {codes : List String}
    {seen : List String} {it : PortfolioItem}
    (h : it ∈ (buildItems pm wd n codes seen).1) :
    it.category = n ∧ lookupFirst pm it.code = some it.name ∧ it.name ≠ "" ∧
      it.detail = (lookupFirst wd it.code).getD (createFallbackDetail it.name) ∧
      it.code ∉ seen ∧
      ∃ raw ∈ codes, normalizedGet pm (lowerStr (jsTrim raw)) = some it.code := by
  induction codes generalizing seen with
  | nil => simp [buildItems] at h
  | cons raw rest ih =>
    cases hr : normalizedGet pm (lowerStr (jsTrim raw)) with
    | none =>
      rw [buildItems_cons_none hr] at h
      obtain ⟨h1, h2, h3, h4, h5, raw', hraw', h6⟩ := ih h
      exact ⟨h1, h2, h3, h4, h5, raw', List.mem_cons_of_mem raw hraw', h6⟩
    | some resolved =>
      by_cases hs : resolved ∈ seen
      · rw [buildItems_cons_seen hr hs] at h
        obtain ⟨h1, h2, h3, h4, h5, raw', hraw', h6⟩ := ih h
        exact ⟨h1, h2, h3, h4, h5, raw', List.mem_cons_of_mem raw hraw', h6⟩
      · cases hn : lookupFirst pm resolved with
        | none =>
          rw [buildItems_cons_noname hr hs hn] at h
          obtain ⟨h1, h2, h3, h4, h5, raw', hraw', h6⟩ := ih h
          exact ⟨h1, h2, h3, h4, h5, raw', List.mem_cons_of_mem raw hraw', h6⟩
        | some name =>
          by_cases he : name = ""
          · rw [buildItems_cons_empty hr hs hn he] at h
            obtain ⟨h1, h2, h3, h4, h5, raw', hraw', h6⟩ := ih h
            exact ⟨h1, h2, h3, h4, h5, raw', List.mem_cons_of_mem raw hraw', h6⟩
          · rw [buildItems_cons_add hr hs hn he] at h
            rcases List.mem_cons.mp h with hhead | htail
            · subst hhead
              exact ⟨rfl, hn, he, rfl, hs,
                raw, List.mem_cons_self raw rest, hr⟩
            · obtain ⟨h1, h2, h3, h4, h5, raw', hraw', h6⟩ := ih htail
              refine ⟨h1, h2, h3, h4, fun hc => h5 (List.mem_cons_of_mem _ hc),
                raw', List.mem_cons_of_mem raw hraw', h6⟩

/-- The updated seen set of `buildItems` holds exactly the previously seen
codes and the codes of the items just pushed. -/
theorem buildItems_snd_mem (pm : List (String × String))
    (wd : List (String × WorkDetail)) (n : String) (codes : List String)
    (seen : List String) (c : String) :
    c ∈ (buildItems pm wd n codes seen).2 ↔
      c ∈ seen ∨ c ∈ (buildItems pm wd n codes seen).1.map PortfolioItem.code := by
  induction codes generalizing seen with
  | nil => simp [buildItems]
  | cons raw rest ih =>
    cases hr : normalizedGet pm (lowerStr (jsTrim raw)) with
    | none => rw [buildItems_cons_none hr]; exact ih seen
    | some resolved =>
      by_cases hs : resolved ∈ seen
      · rw [buildItems_cons_seen hr hs]; exact ih seen
      · cases hn : lookupFirst pm resolved with
        | none => rw [buildItems_cons_noname hr hs hn]; exact ih seen
        | some name =>
          by_cases he : name = ""
          · rw [buildItems_cons_empty hr hs hn he]; exact ih seen
          · rw [buildItems_cons_add hr hs hn he]
            simp only [List.map_cons, List.mem_cons]
            rw [ih (resolved :: seen)]
            simp only [List.mem_cons]
            tauto

/-- The codes produced by one `buildItems` run are pairwise distinct. -/
theorem buildItems_nodup (pm : List (String × String))
    (wd : List (String × WorkDetail)) (n : String) (codes : List String)
    (seen : List String) :
    ((buildItems pm wd n codes seen).1.map PortfolioItem.code).Nodup := by
  induction codes generalizing seen with
  | nil => simp [buildItems]
  | cons raw rest ih =>
    cases hr : normalizedGet pm (lowerStr (jsTrim raw)) with
    | none => rw [buildItems_cons_none hr]; exact ih seen
    | some resolved =>
      by_cases hs : resolved ∈ seen
      · rw [buildItems_cons_seen hr hs]; exact ih seen
      · cases hn : lookupFirst pm resolved with
        | none => rw [buildItems_cons_noname hr hs hn]; exact ih seen
        | some name =>
          by_cases he : name = ""
          · rw [buildItems_cons_empty hr hs hn he]; exact ih seen
          · rw [buildItems_cons_add hr hs hn he]
            simp only [List.map_cons, List.nodup_cons]
            refine ⟨fun hmem => ?_, ih (resolved :: seen)⟩
            obtain ⟨it', hit', hcode⟩ := List.mem_map.mp hmem
            have h5 := (buildItems_mem_item hit').2.2.2.2.1
            rw [hcode] at h5
            exact h5 (List.mem_cons_self _ _)

/-- Completeness: a code claimed by some raw code of the list, resolving to a
non-empty name and not yet seen, is pushed by `buildItems`. -/
theorem buildItems_complete (pm : List (String × String))
    (wd : List (String × WorkDetail)) (n : String) (codes : List String)
    (seen : List String) (c nm : String)
    (hresolve : ∃ raw ∈ codes, normalizedGet pm (lowerStr (jsTrim raw)) = some c)
    (hname : lookupFirst pm c = some nm) (hnm : nm ≠ "") (hseen : c ∉ seen) :
    c ∈ (buildItems pm wd n codes seen).1.map PortfolioItem.code := by
  induction codes generalizing seen with
  | nil => simp at hresolve
  | cons raw rest ih =>
    obtain ⟨raw', hraw', hres⟩ := hresolve
    cases hr : normalizedGet pm (lowerStr (jsTrim raw)) with
    | none =>
      rw [buildItems_cons_none hr]
      rcases List.mem_cons.mp hraw' with hq | hq
      · rw [hq] at hres; rw [hres] at hr; exact Option.noConfusion hr
      · exact ih seen ⟨raw', hq, hres⟩ hseen
    | some resolved =>
      by_cases hs : resolved ∈ seen
      · rw [buildItems_cons_seen hr hs]
        rcases List.mem_cons.mp hraw' with hq | hq
        · rw [hq] at hres; rw [hres] at hr
          have : c = resolved := Option.some.inj hr
          rw [this] at hseen
          exact absurd hs hseen
        · exact ih seen ⟨raw', hq, hres⟩ hseen
      · cases hn : lookupFirst pm resolved with
        | none =>
          rw [buildItems_cons_noname hr hs hn]
          rcases List.mem_cons.mp hraw' with hq | hq
          · rw [hq] at hres; rw [hres] at hr
            have hcr : c = resolved := Option.some.inj hr
            rw [← hcr] at hn
            rw [hname] at hn
            exact Option.noConfusion hn
          · exact ih seen ⟨raw', hq, hres⟩ hseen
        | some name =>
          by_cases he : name = ""
          · rw [buildItems_cons_empty hr hs hn he]
            rcases List.mem_cons.mp hraw' with hq | hq
            · rw [hq] at hres; rw [hres] at hr
              have hcr : c = resolved := Option.some.inj hr
              rw [← hcr] at hn
              rw [hname] at hn
              have : nm = name := Option.some.inj hn
              rw [he] at this
              exact absurd this hnm
            · exact ih seen ⟨raw', hq, hres⟩ hseen
          · rw [buildItems_cons_add hr hs hn he]
            simp only [List.map_cons, List.mem_cons]
            by_cases hcr : c = resolved
            · exact Or.inl hcr
            · rcases List.mem_cons.mp hraw' with hq | hq
              · rw [hq] at hres; rw [hres] at hr
                exact absurd (Option.some.inj hr) hcr
              · refine Or.inr (ih (resolved :: seen) ⟨raw', hq, hres⟩ ?_)
                intro hc
                rcases List.mem_cons.mp hc with h1 | h1
                · exact hcr h1
                · exact hseen h1

/-- Unfolding: a non-array configuration value is skipped. -/
theorem go_cons_nonarr {pm : List (String × String)}
    {wd : List (String × WorkDetail)} {cn : String}
    {rest : List (String × CodesValue)} {seen : List String} :
    buildCategoriesGo pm wd ((cn, CodesValue.nonArray) :: rest) seen =
      buildCategoriesGo pm wd rest seen := rfl

/-- Unfolding: a category that produced no item is not pushed, but its seen
set update is kept. -/
theorem go_cons_arr_skip {pm : List (String × String)}
    {wd : List (String × WorkDetail)} {cn : String} {codes : List String}
    {rest : List (String × CodesValue)} {seen : List String}
    (h : (buildItems pm wd cn codes seen).1 = []) :
    buildCategoriesGo pm wd ((cn, CodesValue.arr codes) :: rest) seen =
      buildCategoriesGo pm wd rest (buildItems pm wd cn codes seen).2 := by
  simp only [buildCategoriesGo, if_pos h]

/-- Unfolding: a category with items is pushed. -/
theorem go_cons_arr_push {pm : List (String × String)}
    {wd : List (String × WorkDetail)} {cn : String} {codes : List String}
    {rest : List (String × CodesValue)} {seen : List String}
    (h : (buildItems pm wd cn codes seen).1 ≠ []) :
    buildCategoriesGo pm wd ((cn, CodesValue.arr codes) :: rest) seen =
      ⟨cn, (buildItems pm wd cn codes seen).1⟩ ::
        buildCategoriesGo pm wd rest (buildItems pm wd cn codes seen).2 := by
  simp only [buildCategoriesGo, if_neg h]

/-- The codes of the categories built by the loop are pairwise distinct and
disjoint from the incoming seen set. -/
theorem go_codes_spec (pm : List (String × String))
    (wd : List (String × WorkDetail)) (entries : List (String × CodesValue))
    (seen : List String) :
    (allCodes (buildCategoriesGo pm wd entries seen)).Nodup ∧
      ∀ c ∈ allCodes (buildCategoriesGo pm wd entries seen), c ∉ seen := by
  induction entries generalizing seen with
  | nil => simp [buildCategoriesGo, allCodes]
  | cons e rest ih =>
    obtain ⟨cn, val⟩ := e
    cases val with
    | nonArray => rw [go_cons_nonarr]; exact ih seen
    | arr codes =>
      by_cases hres : (buildItems pm wd cn codes seen).1 = []
      · rw [go_cons_arr_skip hres]
        obtain ⟨ihn, ihs⟩ := ih (buildItems pm wd cn codes seen).2
        refine ⟨ihn, fun c hc hcs => ihs c hc ?_⟩
        exact (buildItems_snd_mem pm wd cn codes seen c).mpr (Or.inl hcs)
      · rw [go_cons_arr_push hres]
        obtain ⟨ihn, ihs⟩ := ih (buildItems pm wd cn codes seen).2
        simp only [allCodes]
        constructor
        · rw [List.nodup_append]
          refine ⟨buildItems_nodup pm wd cn codes seen, ihn, fun c hc1 hc2 => ?_⟩
          exact ihs c hc2
            ((buildItems_snd_mem pm wd cn codes seen c).mpr (Or.inr hc1))
        · intro c hc
          rcases List.mem_append.mp hc with h1 | h1
          · obtain ⟨it, hit, hcode⟩ := List.mem_map.mp h1
            have h5 := (buildItems_mem_item hit).2.2.2.2.1
            rw [hcode] at h5
            exact h5
          · intro hcs
            exact ihs c h1
              ((buildItems_snd_mem pm wd cn codes seen c).mpr (Or.inl hcs))

/-- Every category produced by the loop is non-empty and stems from an
array-valued configuration entry with its name. -/
theorem go_mem_nonempty (pm : List (String × String))
    (wd : List (String × WorkDetail)) (entries : List (String × CodesValue))
    (seen : List String) (cat : PortfolioCategory)
    (h : cat ∈ buildCategoriesGo pm wd entries seen) :
    cat.items ≠ [] ∧ ∃ codes, (cat.name, CodesValue.arr codes) ∈ entries := by
  induction entries generalizing seen with
  | nil => simp [buildCategoriesGo] at h
  | cons e rest ih =>
    obtain ⟨cn, val⟩ := e
    cases val with
    | nonArray =>
      rw [go_cons_nonarr] at h
      obtain ⟨h1, codes', h2⟩ := ih seen h
      exact ⟨h1, codes', List.mem_cons_of_mem _ h2⟩
    | arr codes =>
      by_cases hres : (buildItems pm wd cn codes seen).1 = []
      · rw [go_cons_arr_skip hres] at h
        obtain ⟨h1, codes', h2⟩ := ih _ h
        exact ⟨h1, codes', List.mem_cons_of_mem _ h2⟩
      · rw [go_cons_arr_push hres] at h
        rcases List.mem_cons.mp h with hh | hh
        · subst hh
          exact ⟨hres, codes, List.mem_cons_self _ _⟩
        · obtain ⟨h1, codes', h2⟩ := ih _ hh
          exact ⟨h1, codes', List.mem_cons_of_mem _ h2⟩

/-- Every item of the loop's output resolves in the code-to-name map, is not
previously seen, and sits in the first configuration entry that claims its
code. -/
theorem go_item_spec (pm : List (String × String))
    (wd : List (String × WorkDetail)) (entries : List (String × CodesValue))
    (seen : List String) (cat : PortfolioCategory) (it : PortfolioItem)
    (hcat : cat ∈ buildCategoriesGo pm wd entries seen) (hit : it ∈ cat.items) :
    it.category = cat.name ∧ lookupFirst pm it.code = some it.name ∧
      it.name ≠ "" ∧
      it.detail = (lookupFirst wd it.code).getD (createFallbackDetail it.name) ∧
      it.code ∉ seen ∧
      ∃ pre e post, entries = pre ++ e :: post ∧ e.1 = cat.name ∧
        claimsCode pm e it.code ∧ ∀ e' ∈ pre, ¬ claimsCode pm e' it.code := by
  induction entries generalizing seen with
  | nil => simp [buildCategoriesGo] at hcat
  | cons e rest ih =>
    obtain ⟨cn, val⟩ := e
    cases val with
    | nonArray =>
      rw [go_cons_nonarr] at hcat
      obtain ⟨h1, h2, h3, h4, h5, pre, e', post, hsplit, hname, hclaims, hpre⟩ :=
        ih seen hcat
      refine ⟨h1, h2, h3, h4, h5, (cn, CodesValue.nonArray) :: pre, e', post,
        by rw [hsplit]; rfl, hname, hclaims, ?_⟩
      intro e'' he''
      rcases List.mem_cons.mp he'' with hq | hq
      · subst hq
        rintro ⟨codes0, habs, -⟩
        exact CodesValue.noConfusion habs
      · exact hpre e'' hq
    | arr codes =>
      by_cases hres : (buildItems pm wd cn codes seen).1 = []
      · rw [go_cons_arr_skip hres] at hcat
        obtain ⟨h1, h2, h3, h4, h5, pre, e', post, hsplit, hname, hclaims, hpre⟩ :=
          ih _ hcat
        have hseen : it.code ∉ seen := fun hc =>
          h5 ((buildItems_snd_mem pm wd cn codes seen it.code).mpr (Or.inl hc))
        refine ⟨h1, h2, h3, h4, hseen, (cn, CodesValue.arr codes) :: pre, e',
          post, by rw [hsplit]; rfl, hname, hclaims, ?_⟩
        intro e'' he''
        rcases List.mem_cons.mp he'' with hq | hq
        · subst hq
          rintro ⟨codes0, heq0, hraw0⟩
          have hcodes0 : codes0 = codes := (CodesValue.arr.inj heq0).symm
          rw [hcodes0] at hraw0
          have hin := buildItems_complete pm wd cn codes seen it.code it.name
            hraw0 h2 h3 hseen
          rw [hres] at hin
          simp at hin
        · exact hpre e'' hq
      · rw [go_cons_arr_push hres] at hcat
        rcases List.mem_cons.mp hcat with hh | hh
        · subst hh
          obtain ⟨h1, h2, h3, h4, h5, raw, hraw, hr⟩ := buildItems_mem_item hit
          refine ⟨h1, h2, h3, h4, h5, [], (cn, CodesValue.arr codes), rest,
            rfl, rfl, ⟨codes, rfl, raw, hraw, hr⟩, ?_⟩
          intro e'' he''
          simp at he''
        · obtain ⟨h1, h2, h3, h4, h5, pre, e', post, hsplit, hname, hclaims,
            hpre⟩ := ih _ hh
          have hseen : it.code ∉ seen := fun hc =>
            h5 ((buildItems_snd_mem pm wd cn codes seen it.code).mpr (Or.inl hc))
          refine ⟨h1, h2, h3, h4, hseen, (cn, CodesValue.arr codes) :: pre, e',
            post, by rw [hsplit]; rfl, hname, hclaims, ?_⟩
          intro e'' he''
          rcases List.mem_cons.mp he'' with hq | hq
          · subst hq
            rintro ⟨codes0, heq0, hraw0⟩
            have hcodes0 : codes0 = codes := (CodesValue.arr.inj heq0).symm
            rw [hcodes0] at hraw0
            have hin := buildItems_complete pm wd cn codes seen it.code it.name
              hraw0 h2 h3 hseen
            have hsnd := (buildItems_snd_mem pm wd cn codes seen it.code).mpr
              (Or.inr hin)
            exact h5 hsnd
          · exact hpre e'' hq

/-- A successful first-match lookup pairs the key with a value in the list. -/
theorem lookupFirst_mem {β : Type _} {l : List (String × β)} {key : String}
    {v : β} (h : lookupFirst l key = some v) : (key, v) ∈ l := by
  induction l with
  | nil => simp [lookupFirst] at h
  | cons p rest ih =>
    obtain ⟨k, w⟩ := p
    simp only [lookupFirst] at h
    by_cases hk : k = key
    · rw [if_pos hk] at h
      cases hk
      cases Option.some.inj h
      exact List.mem_cons_self _ _
    · rw [if_neg hk] at h
      exact List.mem_cons_of_mem _ (ih h)

/-- A canonical code returned by the normalized map is a key of the
code-to-name map and lower-cases to the queried key. -/
theorem normalizedGet_spec (pm : List (String × String)) (k c : String)
    (h : normalizedGet pm k = some c) :
    c ∈ pm.map Prod.fst ∧ lowerStr c = k := by
  unfold normalizedGet lookupLast at h
  have hmem := lookupFirst_mem h
  rw [List.mem_reverse] at hmem
  obtain ⟨c', hc', heq⟩ := List.mem_map.mp hmem
  have h1 : lowerStr c' = k := congrArg Prod.fst heq
  have h2 : c' = c := congrArg Prod.snd heq
  subst h2
  refine ⟨?_, h1⟩
  unfold defaultCodes at hc'
  exact (List.perm_insertionSort _ _).mem_iff.mp hc'

/-- C2: raw codes are matched case-insensitively after trimming against the
canonical code set; unmatched or unnamed codes produce no item; the output
codes are globally distinct; and each item sits in the first configuration
entry claiming its code. -/
theorem buildCategories_dedup (pm : List (String × String))
    (wd : List (String × WorkDetail)) (src : List (String × CodesValue)) :
    (∀ k c, normalizedGet pm k = some c →
        c ∈ pm.map Prod.fst ∧ lowerStr c = k) ∧
      (allCodes (buildCategories pm wd (some src))).Nodup ∧
      ∀ cat ∈ buildCategories pm wd (some src), ∀ it ∈ cat.items,
        it.category = cat.name ∧ lookupFirst pm it.code = some it.name ∧
          it.name ≠ "" ∧
          ∃ pre e post, src = pre ++ e :: post ∧ e.1 = cat.name ∧
            claimsCode pm e it.code ∧ ∀ e' ∈ pre, ¬ claimsCode pm e' it.code := by
  refine ⟨fun k c h => normalizedGet_spec pm k c h,
    (go_codes_spec pm wd src []).1, ?_⟩
  intro cat hcat it hit
  obtain ⟨h1, h2, h3, -, -, hrest⟩ := go_item_spec pm wd src [] cat it hcat hit
  exact ⟨h1, h2, h3, hrest⟩

/-- Concrete code-to-name map used by the category witnesses. -/
def wpm : List (String × String) := [("alpha", "Alpha"), ("beta", "Beta")]

/-- Concrete route category configuration used by the category witnesses:
the second category claims `alpha` again. -/
def wsrc : List (String × CodesValue) :=
  [("Cat1", CodesValue.arr [" ALPHA "]), ("Cat2", CodesValue.arr ["beta", "alpha"])]

/-- The single item of the first witness category. -/
def wItemAlpha : PortfolioItem :=
  ⟨"alpha", "Alpha", "Cat1", createFallbackDetail "Alpha"⟩

/-- Witness for the C2 theorem at a concrete configuration. -/
theorem buildCategories_dedup_witness :
    (allCodes (buildCategories wpm [] (some wsrc))).Nodup ∧
      wItemAlpha.category = "Cat1" := by
  have h := buildCategories_dedup wpm [] wsrc
  refine ⟨h.2.1, ?_⟩
  exact (h.2.2 ⟨"Cat1", [wItemAlpha]⟩ (by decide) wItemAlpha (by decide)).1

/-- C10: every category returned by `buildCategories` has at least one item,
and comes from an array-valued entry of the source configuration. -/
theorem buildCategories_no_empty_category (pm : List (String × String))
    (wd : List (String × WorkDetail)) (src : List (String × CodesValue))
    (cat : PortfolioCategory) (h : cat ∈ buildCategories pm wd (some src)) :
    cat.items ≠ [] ∧ ∃ codes, (cat.name, CodesValue.arr codes) ∈ src :=
  go_mem_nonempty pm wd src [] cat h

/-- Witness for the C10 theorem at a concrete configuration. -/
theorem buildCategories_no_empty_category_witness :
    (⟨"Cat1", [wItemAlpha]⟩ : PortfolioCategory).items ≠ [] ∧
      ∃ codes,
        ((⟨"Cat1", [wItemAlpha]⟩ : PortfolioCategory).name,
          CodesValue.arr codes) ∈ wsrc :=
  buildCategories_no_empty_category wpm [] wsrc ⟨"Cat1", [wItemAlpha]⟩
    (by decide)

/-- `(l.map f).reduceOption` equals `l.filterMap f`. -/
theorem reduceOption_map_eq_filterMap {α β : Type _} (l : List α)
    (f : α → Option β) : (l.map f).reduceOption = l.filterMap f := by
  induction l with
  | nil => rfl
  | cons a l ih =>
    cases hfa : f a with
    | none =>
      rw [List.map_cons, hfa, List.reduceOption_cons_of_none, ih,
        List.filterMap_cons_none hfa]
    | some b =>
      rw [List.map_cons, hfa, List.reduceOption_cons_of_some, ih,
        List.filterMap_cons_some hfa]

/-- Claim-side synthesized fallback, reading "all known codes" as all keys of
the code-to-name map: one category with every key in sorted order, or the
empty list when the map is empty. -/
def specSynthAllKnown (pm : List (String × String))
    (wd : List (String × WorkDetail)) : List PortfolioCategory :=
  if pm.map Prod.fst = [] then []
  else
    [⟨"作品集",
      (defaultCodes pm).map fun code =>
        ⟨code, (lookupFirst pm code).getD "", "作品集",
          (lookupFirst wd code).getD
            (createFallbackDetail ((lookupFirst pm code).getD ""))⟩⟩]

/-- C1's predicted category list for a route key absent from the
configuration: the default entry's categories, or the all-known-codes
synthesized fallback when those are empty. -/
def specC1categories (cfg : List (String × PortfolioRouteEntry))
    (pm : List (String × String)) (wd : List (String × WorkDetail)) :
    List PortfolioCategory :=
  if buildCategories pm wd
      ((lookupFirst cfg "default").getD ⟨none, none⟩).categories = []
  then specSynthAllKnown pm wd
  else buildCategories pm wd
      ((lookupFirst cfg "default").getD ⟨none, none⟩).categories

/-- C1 fails on the code: with the code-to-name map `[("a", "")]` (one known
code whose name is the empty string) and an empty route configuration, the
memo yields the empty list for the absent key "x", while the claim predicts
a synthesized category holding the known code "a". -/
theorem usePortfolioData_absent_counterexample :
    lookupFirst ([] : List (String × PortfolioRouteEntry)) "x" = none ∧
      usePortfolioCategories [] [("a", "")] [] "x" ≠
        specC1categories [] [("a", "")] [] := by
  exact ⟨rfl, by decide⟩

/-- The amended claim-side item for one known code: the full portfolio item
when the code's name is non-empty, nothing otherwise. -/
def specItemOfCode (pm : List (String × String))
    (wd : List (String × WorkDetail)) (code : String) :
    Option PortfolioItem :=
  match lookupFirst pm code with
  | none => none
  | some name =>
    if name = "" then none
    else some ⟨code, name, "作品集",
      (lookupFirst wd code).getD (createFallbackDetail name)⟩

/-- Amended claim-side synthesized fallback: all known codes that resolve to
a non-empty name, in sorted order; the empty list when none does. -/
def specSynthNamed (pm : List (String × String))
    (wd : List (String × WorkDetail)) : List PortfolioCategory :=
  match (defaultCodes pm).filterMap (specItemOfCode pm wd) with
  | [] => []
  | it :: its => [⟨"作品集", it :: its⟩]

/-- The amended C1 prediction: the default entry's categories, or the
non-empty-name synthesized fallback when those are empty. -/
def specC1amended (cfg : List (String × PortfolioRouteEntry))
    (pm : List (String × String)) (wd : List (String × WorkDetail)) :
    List PortfolioCategory :=
  if buildCategories pm wd
      ((lookupFirst cfg "default").getD ⟨none, none⟩).categories = []
  then specSynthNamed pm wd
  else buildCategories pm wd
      ((lookupFirst cfg "default").getD ⟨none, none⟩).categories

/-- Mapping detail attachment over the bare item of a code gives the amended
claim-side item of that code. -/
theorem attach_bare_eq_specItem (pm : List (String × String))
    (wd : List (String × WorkDetail)) :
    (fun code => Option.map (attachDetail wd) (bareOfCode pm code)) =
      specItemOfCode pm wd := by
  funext code
  unfold bareOfCode specItemOfCode
  cases lookupFirst pm code with
  | none => rfl
  | some name =>
    dsimp only
    by_cases he : name = ""
    · rw [if_pos he, if_pos he]
      rfl
    · rw [if_neg he, if_neg he]
      rfl

/-- The code's synthesized fallback equals the amended claim-side one. -/
theorem synthFallback_eq_specSynthNamed (pm : List (String × String))
    (wd : List (String × WorkDetail)) :
    synthFallback pm wd = specSynthNamed pm wd := by
  unfold synthFallback specSynthNamed
  rw [reduceOption_map_eq_filterMap]
  have hmap := List.map_filterMap (bareOfCode pm) (attachDetail wd)
    (defaultCodes pm)
  rw [attach_bare_eq_specItem pm wd] at hmap
  rw [← hmap]
  cases hcase : (defaultCodes pm).filterMap (bareOfCode pm) with
  | nil => rfl
  | cons b bs =>
    simp only [List.map_cons]
    rw [if_neg (List.cons_ne_nil b bs)]

/-- C1 (amended): for every route key absent from the configuration, the
memo produces the default entry's categories, falling back to one
synthesized category holding every known code with a non-empty name (in
sorted code order), or the empty list when no code has one. -/
theorem usePortfolioData_absentKey (cfg : List (String × PortfolioRouteEntry))
    (pm : List (String × String)) (wd : List (String × WorkDetail))
    (routeKey : String) (h : lookupFirst cfg routeKey = none) :
    usePortfolioCategories cfg pm wd routeKey = specC1amended cfg pm wd := by
  have hnot : ¬(routeKey = "default" ∧
      (lookupFirst cfg "default").isSome = true) := by
    rintro ⟨hk, hsome⟩
    rw [hk] at h
    rw [h] at hsome
    simp at hsome
  unfold specC1amended
  show (if (if buildCategories pm wd
          ((lookupFirst cfg routeKey).getD ⟨none, none⟩).categories = [] ∧
          ¬(routeKey = "default" ∧ (lookupFirst cfg "default").isSome = true)
        then buildCategories pm wd
          ((lookupFirst cfg "default").getD ⟨none, none⟩).categories
        else buildCategories pm wd
          ((lookupFirst cfg routeKey).getD ⟨none, none⟩).categories) = []
      then synthFallback pm wd
      else (if buildCategories pm wd
          ((lookupFirst cfg routeKey).getD ⟨none, none⟩).categories = [] ∧
          ¬(routeKey = "default" ∧ (lookupFirst cfg "default").isSome = true)
        then buildCategories pm wd
          ((lookupFirst cfg "default").getD ⟨none, none⟩).categories
        else buildCategories pm wd
          ((lookupFirst cfg routeKey).getD ⟨none, none⟩).categories)) =
    (if buildCategories pm wd
        ((lookupFirst cfg "default").getD ⟨none, none⟩).categories = []
      then specSynthNamed pm wd
      else buildCategories pm wd
        ((lookupFirst cfg "default").getD ⟨none, none⟩).categories)
  have hcond : buildCategories pm wd
      ((lookupFirst cfg routeKey).getD ⟨none, none⟩).categories = [] ∧
      ¬(routeKey = "default" ∧ (lookupFirst cfg "default").isSome = true) := by
    refine ⟨?_, hnot⟩
    rw [h]
    rfl
  rw [if_pos hcond]
  by_cases hr2 : buildCategories pm wd
      ((lookupFirst cfg "default").getD ⟨none, none⟩).categories = []
  · rw [if_pos hr2, if_pos hr2]
    exact synthFallback_eq_specSynthNamed pm wd
  · rw [if_neg hr2, if_neg hr2]

/-- Concrete route configuration for the C1 witness. -/
def wcfg : List (String × PortfolioRouteEntry) :=
  [("default", ⟨none, some [("Cat1", CodesValue.arr ["alpha"])]⟩)]

/-- Witness for the amended C1 theorem at a concrete configuration and the
absent route key "nope". -/
theorem usePortfolioData_absentKey_witness :
    usePortfolioCategories wcfg wpm [] "nope" = specC1amended wcfg wpm [] :=
  usePortfolioData_absentKey wcfg wpm [] "nope" rfl

/-! ### Route key resolver -/

/-- The browser location fields read by `useRouteKey`. -/
structure BrowserLocation where
  hash : String
  pathname : String
deriving DecidableEq

/-- `replace(/^#\/?/, '')`: drop a leading hash mark and one optional slash
after it. -/
def stripHashMark (s : String) : String :=
  match s.data with
  | '#' :: '/' :: rest => String.mk rest
  | '#' :: rest => String.mk rest
  | _ => s

/-- `replace(/^\/+|\/+$/g, '').split('/')[0]`: the first slash-separated
segment after stripping surrounding slashes. -/
def firstSegment (s : String) : String :=
  String.mk ((s.data.dropWhile (· = '/')).takeWhile (· ≠ '/'))

/-- Prefix match: the remainder of the second list after the first, when the
first is an initial run of the second. -/
def dropMatch : List Char → List Char → Option (List Char)
  | [], s => some s
  | _ :: _, [] => none
  | p :: ps, c :: cs => if p = c then dropMatch ps cs else none

/-- Remove the first occurrence of the pattern from the list
(`String.prototype.replace` with a string pattern and empty replacement;
the empty pattern matches at position zero, changing nothing). -/
def removeFirstOcc (pat : List Char) : List Char → List Char
  | [] =>
    match dropMatch pat [] with
    | some r => r
    | none => []
  | c :: cs =>
    match dropMatch pat (c :: cs) with
    | some r => r
    | none => c :: removeFirstOcc pat cs

/-- `pathname.replace(process.env.PUBLIC_URL || '', '')`. -/
def replaceFirst (s pat : String) : String :=
  String.mk (removeFirstOcc pat.data s.data)

/-- `useRouteKey`: the lower-cased first hash segment, else the lower-cased
first pathname segment after stripping the public base path, else the
literal "default"; "default" also when no window exists. -/
def useRouteKey (loc : Option BrowserLocation) (publicUrl : String) : String :=
  match loc with
  | none => "default"
  | some loc =>
    if firstSegment (stripHashMark loc.hash) ≠ "" then
      lowerStr (firstSegment (stripHashMark loc.hash))
    else
      if firstSegment (replaceFirst loc.pathname publicUrl) ≠ "" then
        lowerStr (firstSegment (replaceFirst loc.pathname publicUrl))
      else "default"

/-- C8: the route key resolver always returns a value: the lower-cased first
hash segment when non-empty, else the lower-cased first pathname segment
(after stripping the public base path) when non-empty, else the literal
"default"; and "default" when no window exists. -/
theorem useRouteKey_total (loc : BrowserLocation) (publicUrl : String) :
    useRouteKey (some loc) publicUrl =
      (if firstSegment (stripHashMark loc.hash) ≠ "" then
        lowerStr (firstSegment (stripHashMark loc.hash))
      else if firstSegment (replaceFirst loc.pathname publicUrl) ≠ "" then
        lowerStr (firstSegment (replaceFirst loc.pathname publicUrl))
      else "default") ∧
      useRouteKey none publicUrl = "default" :=
  ⟨rfl, rfl⟩

/-! ### Scroll-spy section selector -/

/-- The part of a DOM rectangle read by the scroll spy. -/
structure SpyRect where
  top : ℚ
  bottom : ℚ
deriving DecidableEq

/-- A registered section: its portfolio code and measured rectangle. -/
structure SpySection where
  code : String
  rect : SpyRect
deriving DecidableEq

/-- `viewportHeight * 0.35`, the top of the focus band. -/
def focusTopOf (vh : ℚ) : ℚ := vh * 35 / 100

/-- `viewportHeight * 0.75`, the bottom of the focus band. -/
def focusBottomOf (vh : ℚ) : ℚ := vh * 75 / 100

/-- A section's offset-adjusted bounds intersect the focus band. -/
def inFocusBand (offset ft fb : ℚ) (s : SpySection) : Prop :=
  s.rect.top - offset ≤ fb ∧ ft ≤ s.rect.bottom - offset

/-- A section lies entirely above the focus band. -/
def aboveFocusBand (offset ft : ℚ) (s : SpySection) : Prop :=
  s.rect.bottom - offset < ft

/-- The candidate update of one in-band loop iteration: the current section
when no candidate is set, overridden by the next section when its adjusted
top is above the band bottom. -/
def spyCandidate (off fb : ℚ) (s : SpySection) (rest : List SpySection)
    (cand : Option String) : Option String :=
  match rest with
  | [] => some (cand.getD s.code)
  | nxt :: _ =>
    if nxt.rect.top - off < fb then some nxt.code
    else some (cand.getD s.code)

/-- The `sections.forEach` loop of `updateActive`: a section in the focus
band becomes the candidate when none is set, and the following section takes
over when its adjusted top is above the band bottom. -/
def spyLoop (ft fb off : ℚ) :
    List SpySection → Option String → Option String
  | [], cand => cand
  | s :: rest, cand =>
    if s.rect.top - off ≤ fb ∧ ft ≤ s.rect.bottom - off then
      spyLoop ft fb off rest (spyCandidate off fb s rest cand)
    else spyLoop ft fb off rest cand

/-- `updateActive`: run the loop; when no candidate was found, fall back to
the last section if its adjusted top is above the band bottom, else none. -/
def updateActive (offset vh : ℚ) (sections : List SpySection) :
    Option String :=
  match spyLoop (focusTopOf vh) (focusBottomOf vh) offset sections none with
  | some c => some c
  | none =>
    match sections.getLast? with
    | none => none
    | some s =>
      if s.rect.top - offset < focusBottomOf vh then some s.code else none

/-- Once the loop holds a candidate, it never drops back to none. -/
theorem spyLoop_some (ft fb off : ℚ) (l : List SpySection) (d : String) :
    ∃ d', spyLoop ft fb off l (some d) = some d' := by
  induction l generalizing d with
  | nil => exact ⟨d, rfl⟩
  | cons s rest ih =>
    by_cases hw : s.rect.top - off ≤ fb ∧ ft ≤ s.rect.bottom - off
    · rw [spyLoop, if_pos hw]
      cases rest with
      | nil => exact ih d
      | cons nxt tail =>
        simp only [spyCandidate]
        by_cases hn : nxt.rect.top - off < fb
        · rw [if_pos hn]; exact ih nxt.code
        · rw [if_neg hn]; exact ih d
    · rw [spyLoop, if_neg hw]; exact ih d

/-- The loop either returns its incoming candidate or a code of a listed
section. -/
theorem spyLoop_mem (ft fb off : ℚ) (l : List SpySection)
    (cand : Option String) :
    spyLoop ft fb off l cand = cand ∨
      ∃ s ∈ l, spyLoop ft fb off l cand = some s.code := by
  induction l generalizing cand with
  | nil => exact Or.inl rfl
  | cons s rest ih =>
    by_cases hw : s.rect.top - off ≤ fb ∧ ft ≤ s.rect.bottom - off
    · rw [spyLoop, if_pos hw]
      have hc2 : ∀ c2 : Option String,
          (c2 = cand ∨ ∃ t ∈ s :: rest, c2 = some t.code) →
          (spyLoop ft fb off rest c2 = cand ∨
            ∃ t ∈ s :: rest, spyLoop ft fb off rest c2 = some t.code) := by
        intro c2 hc
        rcases ih c2 with h | ⟨t, ht, hres⟩
        · rcases hc with hc | ⟨t, ht, hc⟩
          · exact Or.inl (h.trans hc)
          · exact Or.inr ⟨t, ht, h.trans hc⟩
        · exact Or.inr ⟨t, List.mem_cons_of_mem s ht, hres⟩
      cases rest with
      | nil =>
        refine hc2 _ ?_
        cases cand with
        | none => exact Or.inr ⟨s, List.mem_cons_self s [], rfl⟩
        | some c => exact Or.inl rfl
      | cons nxt tail =>
        simp only [spyCandidate]
        by_cases hn : nxt.rect.top - off < fb
        · rw [if_pos hn]
          exact hc2 _ (Or.inr ⟨nxt,
            List.mem_cons_of_mem s (List.mem_cons_self nxt tail), rfl⟩)
        · rw [if_neg hn]
          refine hc2 _ ?_
          cases cand with
          | none => exact Or.inr ⟨s, List.mem_cons_self s _, rfl⟩
          | some c => exact Or.inl rfl
    · rw [spyLoop, if_neg hw]
      rcases ih cand with h | ⟨t, ht, hres⟩
      · exact Or.inl h
      · exact Or.inr ⟨t, List.mem_cons_of_mem s ht, hres⟩

/-- When no section intersects the focus band the loop keeps its incoming
candidate. -/
theorem spyLoop_no_within (ft fb off : ℚ) (l : List SpySection)
    (cand : Option String)
    (h : ∀ s ∈ l, ¬ inFocusBand off ft fb s) :
    spyLoop ft fb off l cand = cand := by
  induction l generalizing cand with
  | nil => rfl
  | cons s rest ih =>
    have hs : ¬(s.rect.top - off ≤ fb ∧ ft ≤ s.rect.bottom - off) :=
      h s (List.mem_cons_self s rest)
    rw [spyLoop, if_neg hs]
    exact ih cand fun t ht => h t (List.mem_cons_of_mem s ht)

/-- When some section intersects the focus band the loop ends with a
candidate. -/
theorem spyLoop_some_of_within (ft fb off : ℚ) (l : List SpySection)
    (h : ∃ s ∈ l, inFocusBand off ft fb s) (cand : Option String) :
    ∃ d, spyLoop ft fb off l cand = some d := by
  induction l generalizing cand with
  | nil => simp at h
  | cons s rest ih =>
    by_cases hw : s.rect.top - off ≤ fb ∧ ft ≤ s.rect.bottom - off
    · rw [spyLoop, if_pos hw]
      cases rest with
      | nil =>
        cases cand with
        | none => exact ⟨s.code, rfl⟩
        | some c => exact ⟨c, rfl⟩
      | cons nxt tail =>
        simp only [spyCandidate]
        by_cases hn : nxt.rect.top - off < fb
        · rw [if_pos hn]; exact spyLoop_some ft fb off _ _
        · rw [if_neg hn]
          cases cand with
          | none => exact spyLoop_some ft fb off _ _
          | some c => exact spyLoop_some ft fb off _ _
    · rw [spyLoop, if_neg hw]
      obtain ⟨t, ht, hband⟩ := h
      rcases List.mem_cons.mp ht with hq | hq
      · rw [hq] at hband; exact absurd hband hw
      · exact ih ⟨t, hq, hband⟩ cand

/-- Counterexample section entirely above the focus band. -/
def secAbove : SpySection := ⟨"a", ⟨0, 100⟩⟩

/-- Counterexample section entirely below the focus band. -/
def secBelow : SpySection := ⟨"b", ⟨800, 900⟩⟩

/-- C4 fails on the code: with viewport height 1000 and zero offset, neither
section intersects the focus band [350, 750], section "a" lies above the
band, yet no section is nominated active, because the fallback only examines
the last registered section and its top (800) is not above the band
bottom. -/
theorem scrollSpy_counterexample :
    (∀ s ∈ [secAbove, secBelow],
      ¬ inFocusBand 0 (focusTopOf 1000) (focusBottomOf 1000) s) ∧
      aboveFocusBand 0 (focusTopOf 1000) secAbove ∧
      updateActive 0 1000 [secAbove, secBelow] = none := by
  have hft : focusTopOf 1000 = 350 := by norm_num [focusTopOf]
  have hfb : focusBottomOf 1000 = 750 := by norm_num [focusBottomOf]
  have hnA : ¬ inFocusBand 0 (focusTopOf 1000) (focusBottomOf 1000) secAbove := by
    rw [hft, hfb]
    rintro ⟨-, h2⟩
    norm_num [secAbove] at h2
  have hnB : ¬ inFocusBand 0 (focusTopOf 1000) (focusBottomOf 1000) secBelow := by
    rw [hft, hfb]
    rintro ⟨h1, -⟩
    norm_num [secBelow] at h1
  refine ⟨?_, ?_, ?_⟩
  · intro s hs
    rcases List.mem_cons.mp hs with hq | hq
    · rw [hq]; exact hnA
    · rw [List.mem_singleton.mp hq]; exact hnB
  · rw [hft]
    norm_num [aboveFocusBand, secAbove]
  · have hloop := spyLoop_no_within (focusTopOf 1000) (focusBottomOf 1000) 0
      [secAbove, secBelow] none (by
        intro s hs
        rcases List.mem_cons.mp hs with hq | hq
        · rw [hq]; exact hnA
        · rw [List.mem_singleton.mp hq]; exact hnB)
    unfold updateActive
    rw [hloop]
    have hlast : ¬ secBelow.rect.top - 0 < focusBottomOf 1000 := by
      rw [hfb]
      norm_num [secBelow]
    have hgl : [secAbove, secBelow].getLast? = some secBelow := rfl
    rw [hgl]
    dsimp only
    exact if_neg hlast

/-- C4 (amended): with no section registered nothing is active; when some
section intersects the focus band exactly one listed section is nominated;
when none intersects, the last registered section is nominated exactly when
its adjusted top is above the band bottom (it then lies wholly above the
band), else none. -/
theorem scrollSpy_updateActive (offset vh : ℚ) (sections : List SpySection) :
    (sections = [] → updateActive offset vh sections = none) ∧
      ((∃ s ∈ sections,
          inFocusBand offset (focusTopOf vh) (focusBottomOf vh) s) →
        ∃ s ∈ sections, updateActive offset vh sections = some s.code) ∧
      ((∀ s ∈ sections,
          ¬ inFocusBand offset (focusTopOf vh) (focusBottomOf vh) s) →
        updateActive offset vh sections =
          match sections.getLast? with
          | none => none
          | some s =>
            if s.rect.top - offset < focusBottomOf vh then some s.code
            else none) := by
  refine ⟨?_, ?_, ?_⟩
  · intro h
    rw [h]
    rfl
  · intro h
    obtain ⟨d, hd⟩ := spyLoop_some_of_within (focusTopOf vh) (focusBottomOf vh)
      offset sections h none
    rcases spyLoop_mem (focusTopOf vh) (focusBottomOf vh) offset sections none
      with hres | ⟨s, hs, hres⟩
    · rw [hres] at hd
      exact Option.noConfusion hd
    · refine ⟨s, hs, ?_⟩
      unfold updateActive
      rw [hres]
  · intro h
    have hloop := spyLoop_no_within (focusTopOf vh) (focusBottomOf vh) offset
      sections none (fun s hs => h s hs)
    unfold updateActive
    rw [hloop]

/-- Witness section inside the focus band of a 1000-high viewport. -/
def secWithin : SpySection := ⟨"c", ⟨300, 400⟩⟩

/-- `secWithin` intersects the focus band at offset 0, viewport 1000. -/
theorem secWithin_inBand :
    inFocusBand 0 (focusTopOf 1000) (focusBottomOf 1000) secWithin := by
  constructor
  · norm_num [secWithin, focusBottomOf]
  · norm_num [secWithin, focusTopOf]

/-- Witness for the amended C4 theorem: the empty case and the in-band case
at concrete inputs. -/
theorem scrollSpy_updateActive_witness :
    updateActive 0 1000 ([] : List SpySection) = none ∧
      ∃ s ∈ [secWithin], updateActive 0 1000 [secWithin] = some s.code :=
  ⟨(scrollSpy_updateActive 0 1000 []).1 rfl,
    (scrollSpy_updateActive 0 1000 [secWithin]).2.1
      ⟨secWithin, List.mem_cons_self secWithin [], secWithin_inBand⟩⟩

end PortfolioSpec
